import Mathlib

/-!
Verification of `mypy/server/mergecheck.py` (duplicate-AST-node check after an
incremental merge) against its natural-language specification.

The file shallowly embeds:

* the data model: a heap of objects (`Obj`), some of which are `SymbolNode`s
  (`Sym`, with a concrete kind `SymKind`), connected by labelled references;
* the graph walker `get_reachable_graph` / `get_path` (these live in
  `mypy/server/objgraph.py`, which is not part of the sources under check, so
  they are modelled from the specification's description of the Graph Walker);
* the checker `check_consistency` and the renderer `path_to_str`, translated
  from `mypy/server/mergecheck.py`.

Python's `print` calls are modelled by accumulating a list of output lines, and
the two `assert` statements by an `Outcome.assertionError` result carrying the
output produced so far.
-/

namespace MergeCheck

/-- Concrete kinds (Python classes) of `SymbolNode` relevant to the checker:
`FakeInfo`, `Var`, `Decorator`, `FuncDef` are tested for explicitly in
`check_consistency`; the remaining kinds stand for the other concrete
`SymbolNode` classes (`TypeInfo`, `MypyFile`, `OverloadedFuncDef`,
`TypeAlias`). `type(x) is type(y)` on symbol nodes is kind equality. -/
inductive SymKind where
  | fakeInfo
  | var
  | decorator
  | funcDef
  | overloadedFuncDef
  | typeInfo
  | mypyFile
  | typeAlias
  deriving DecidableEq, Repr

/-- `type(sym).__name__` for a symbol node of the given kind. -/
def SymKind.typeName : SymKind → String
  | .fakeInfo => "FakeInfo"
  | .var => "Var"
  | .decorator => "Decorator"
  | .funcDef => "FuncDef"
  | .overloadedFuncDef => "OverloadedFuncDef"
  | .typeInfo => "TypeInfo"
  | .mypyFile => "MypyFile"
  | .typeAlias => "TypeAlias"

/-- A `SymbolNode`: a concrete kind, a fully-qualified name (`None` is
modelled as `none`), the `is_overload` flag (meaningful for `FuncDef`), and
the short name (used by `path_to_str` for `Var` objects). -/
structure Sym where
  kind : SymKind
  fullname : Option String
  is_overload : Bool
  name : String
  deriving DecidableEq, Repr

/-- An edge label: either a field name / string key, or an integer index. -/
inductive Attr where
  | s (v : String)
  | n (v : Int)
  deriving DecidableEq, Repr

/-- `repr(attr)`, as used for container subscripts in `path_to_str`. -/
def Attr.reprStr : Attr → String
  | .s v => "'" ++ v ++ "'"
  | .n v => toString v

/-- `f"{attr}"`, as used for field accesses in `path_to_str`. -/
def Attr.plain : Attr → String
  | .s v => v
  | .n v => toString v

/-- An object in the heap.  `sym?` is `some s` exactly when the object is a
`SymbolNode`; `extName` is `type(obj).__name__` for non-symbol objects
(e.g. `"dict"`, `"list"`, `"SymbolTable"`, `"BuildManager"`); `children` are
the labelled structural references to other objects (heap indices). -/
structure Obj where
  sym? : Option Sym
  extName : String
  children : List (Attr × Nat)
  deriving DecidableEq, Repr

/-- `type(obj).__name__`. -/
def Obj.typeName (o : Obj) : String :=
  match o.sym? with
  | some s => s.kind.typeName
  | none => o.extName

/-- `isinstance(obj, Var)`. -/
def Obj.isVarObj (o : Obj) : Bool :=
  match o.sym? with
  | some s => s.kind == SymKind.var
  | none => false

/-- The short `name` of a `Var` object (empty for non-symbol objects). -/
def Obj.varShortName (o : Obj) : String :=
  match o.sym? with
  | some s => s.name
  | none => ""

/-- A heap: objects indexed by identity (`id(obj)` is the index). -/
abbrev Heap := List Obj

/-- The labelled out-edges of the object with identity `i` (empty when `i` is
not a valid identity). -/
def childEdges (heap : Heap) (i : Nat) : List (Attr × Nat) :=
  match heap.get? i with
  | some o => o.children
  | none => []

/-- Upper bound on the number of worklist steps the traversal can take:
each step either consumes a worklist entry outright or converts one entry
into the (not yet visited) object's children.  Used as fuel for `walkF`. -/
def walkMeasure (heap : Heap) (wl : List (Nat × Option (Nat × Attr)))
    (seen : List Nat) : Nat :=
  wl.length +
    ∑ i in (Finset.range heap.length).filter (fun i => i ∉ seen),
      (childEdges heap i).length

/-- Modelled from the spec: the worklist core of `get_reachable_graph`
(`mypy/server/objgraph.py`, not under the sources being checked).  Each
worklist entry is an object identity together with the edge (parent identity,
label) through which it was discovered (`none` for the root).  An identity is
entered into `seen` exactly once, on first discovery; later encounters are
skipped, as are dangling references.  `fuel` bounds the number of steps; with
`fuel ≥ walkMeasure heap wl seen` the worklist is always fully consumed. -/
def walkF (heap : Heap) :
    Nat → List (Nat × Option (Nat × Attr)) → List Nat →
    List (Nat × Nat × Attr) → List Nat × List (Nat × Nat × Attr)
  | 0, _, seen, parents => (seen, parents)
  | _ + 1, [], seen, parents => (seen, parents)
  | fuel + 1, (i, e) :: rest, seen, parents =>
    if i ∈ seen ∨ heap.length ≤ i then
      walkF heap fuel rest seen parents
    else
      walkF heap fuel
        (rest ++ (childEdges heap i).map (fun c => (c.2, some (i, c.1))))
        (seen ++ [i])
        (match e with
         | none => parents
         | some pe => parents ++ [(i, pe)])

/-- Modelled from the spec: `get_reachable_graph(root)` from
`mypy/server/objgraph.py` (not under the sources being checked).  Returns the
identity-keyed visited list (in discovery order, mirroring the insertion-order
`seen` dict) and the edge map recording, for every non-root visited identity,
the (parent identity, label) through which it was first discovered. -/
def get_reachable_graph (heap : Heap) (root : Nat) :
    List Nat × List (Nat × Nat × Attr) :=
  walkF heap (walkMeasure heap [(root, none)] []) [(root, none)] [] []

/-- First recorded edge for identity `i` in the edge map. -/
def lookupParent (parents : List (Nat × Nat × Attr)) (i : Nat) :
    Option (Nat × Attr) :=
  (parents.find? (fun e => e.1 == i)).map (fun e => e.2)

/-- The object stored at identity `i` (a dummy for invalid identities). -/
def objAt (heap : Heap) (i : Nat) : Obj :=
  match heap.get? i with
  | some o => o
  | none => { sym? := none, extName := "", children := [] }

/-- Modelled from the spec: `get_path(o, seen, parents)` from
`mypy/server/objgraph.py` (not under the sources being checked).  Walks the
edge map from the target identity up to an identity with no recorded edge
(the root), collecting `(label, object)` steps, and returns them in
root-to-target order.  `fuel` is the defensive bound on steps the spec
requires. -/
def get_path (heap : Heap) (parents : List (Nat × Nat × Attr)) :
    Nat → Nat → List (Attr × Obj)
  | 0, _ => []
  | fuel + 1, i =>
    match lookupParent parents i with
    | none => []
    | some (p, a) => get_path heap parents fuel p ++ [(a, objAt heap i)]

/-- The loop body of `path_to_str` (one `for attr, obj in path` iteration,
with `t = type(obj).__name__` inlined): extend the accumulated `result` by the
rendering of one step. -/
def pathStep (result : String) (step : Attr × Obj) : String :=
  if step.2.typeName = "dict" ∨ step.2.typeName = "tuple" ∨
      step.2.typeName = "SymbolTable" ∨ step.2.typeName = "list" then
    result ++ "[" ++ step.1.reprStr ++ "]"
  else if step.2.isVarObj then
    result ++ "." ++ step.1.plain ++ "(" ++ step.2.typeName ++ ":" ++
      step.2.varShortName ++ ")"
  else if step.2.typeName = "BuildManager" ∨
      step.2.typeName = "FineGrainedBuildManager" then
    result ++ "." ++ step.1.plain
  else
    result ++ "." ++ step.1.plain ++ "(" ++ step.2.typeName ++ ")"

/-- `path_to_str` from `mypy/server/mergecheck.py`, translated directly: a
left fold of `pathStep` over the path, starting from `"<root>"`. -/
def path_to_str (path : List (Attr × Obj)) : String :=
  path.foldl pathStep "<root>"

/-- The per-step fragment of §4.3 of the spec: container kinds render as a
subscript, `Var` objects as a field access with kind tag and short name, the
two manager kinds as a bare field access, everything else as a field access
with kind tag. -/
def renderFragment (step : Attr × Obj) : String :=
  if step.2.typeName = "dict" ∨ step.2.typeName = "tuple" ∨
      step.2.typeName = "SymbolTable" ∨ step.2.typeName = "list" then
    "[" ++ step.1.reprStr ++ "]"
  else if step.2.isVarObj then
    "." ++ step.1.plain ++ "(" ++ step.2.typeName ++ ":" ++
      step.2.varShortName ++ ")"
  else if step.2.typeName = "BuildManager" ∨
      step.2.typeName = "FineGrainedBuildManager" then
    "." ++ step.1.plain
  else
    "." ++ step.1.plain ++ "(" ++ step.2.typeName ++ ")"

/-- `DUMP_MISMATCH_NODES` from `mergecheck.py`. -/
def DUMP_MISMATCH_NODES : Bool := false

/-- Outcome of `check_consistency`: normal return (carrying the final
grouping map `m` and the output printed so far) or an `AssertionError`
(carrying the output printed before the failing assert). -/
inductive Outcome where
  | ok (m : List (String × Nat × Sym)) (output : List String)
  | assertionError (output : List String)
  deriving DecidableEq, Repr

/-- Whether the outcome is an `AssertionError`. -/
def Outcome.raised : Outcome → Bool
  | .ok _ _ => false
  | .assertionError _ => true

/-- The diagnostic output printed during the call. -/
def Outcome.output : Outcome → List String
  | .ok _ out => out
  | .assertionError out => out

/-- First binding for key `fn` in the grouping map `m` (`fn in m` /
`m[fn]`; keys are inserted at most once so the first match is the binding). -/
def lookupM (m : List (String × Nat × Sym)) (fn : String) : Option (Nat × Sym) :=
  (m.find? (fun e => e.1 == fn)).map (fun e => e.2)

/-- Textual dump of a symbol node (`print(id(sym), sym)` in verbose mode). -/
def symStr (s : Sym) : String :=
  toString (repr s)

/-- The header line
`f"\nDuplicate {type(sym).__name__!r} nodes with fullname {fn!r} found:"`. -/
def dupHeader (k : SymKind) (fn : String) : String :=
  "\nDuplicate '" ++ k.typeName ++ "' nodes with fullname '" ++ fn ++ "' found:"

/-- The diagnostic lines printed for a genuine duplicate, in order:
the header, then `"[1] %d: %s" % (id(sym1), path_to_str(path1))` for the
newly-seen node `sym` (identity `i`), then the same `"[2]"` line for the
previously-recorded node `m[fn]` (identity `j`), then the verbose dump when
`DUMP_MISMATCH_NODES` is set. -/
def dupLines (heap : Heap) (parents : List (Nat × Nat × Attr))
    (i j : Nat) (sym prev : Sym) (fn : String) : List String :=
  [dupHeader sym.kind fn,
   "[1] " ++ toString i ++ ": " ++
     path_to_str (get_path heap parents (parents.length + 1) i),
   "[2] " ++ toString j ++ ": " ++
     path_to_str (get_path heap parents (parents.length + 1) j)] ++
  (if DUMP_MISMATCH_NODES then
    ["---", toString i ++ " " ++ symStr sym,
     "---", toString j ++ " " ++ symStr prev]
   else [])

/-- The `for sym in syms` loop of `check_consistency`, translated directly.
Each list entry is `(id(sym), sym)`.  In order: `FakeInfo` instances are
skipped; `assert fn is not None`; `Var` and `Decorator` are skipped; overload
variants (`FuncDef` with `is_overload`) are skipped; a not-yet-seen name is
recorded (`m[sym.fullname] = sym`); a collision with a node of a different
concrete type is skipped; otherwise the diagnostic lines are printed and
`assert sym.fullname not in m` fails. -/
def checkLoop (heap : Heap) (parents : List (Nat × Nat × Attr)) :
    List (Nat × Sym) → List (String × Nat × Sym) → List String → Outcome
  | [], m, out => .ok m out
  | (i, sym) :: rest, m, out =>
    if sym.kind = SymKind.fakeInfo then
      checkLoop heap parents rest m out
    else
      match sym.fullname with
      | none => .assertionError out
      | some fn =>
        if sym.kind = SymKind.var ∨ sym.kind = SymKind.decorator then
          checkLoop heap parents rest m out
        else if sym.kind = SymKind.funcDef ∧ sym.is_overload = true then
          checkLoop heap parents rest m out
        else
          match lookupM m fn with
          | none => checkLoop heap parents rest (m ++ [(fn, i, sym)]) out
          | some (j, prev) =>
            if sym.kind = prev.kind then
              .assertionError (out ++ dupLines heap parents i j sym prev fn)
            else
              checkLoop heap parents rest m out

/-- `syms = [x for x in list(seen.values()) if isinstance(x, SymbolNode)]`:
the symbol nodes among the visited objects, in discovery order, with their
identities. -/
def symsOf (heap : Heap) (seen : List Nat) : List (Nat × Sym) :=
  seen.filterMap (fun i =>
    match heap.get? i with
    | some o =>
      match o.sym? with
      | some s => some (i, s)
      | none => none
    | none => none)

/-- The reachable symbol nodes (with identities) for a root, in discovery
order. -/
def reachableSyms (heap : Heap) (root : Nat) : List (Nat × Sym) :=
  symsOf heap (get_reachable_graph heap root).1

/-- `check_consistency(o)` from `mypy/server/mergecheck.py`: obtain the
reachability snapshot, filter to symbol nodes, and run the checking loop with
an empty grouping map and no output. -/
def check_consistency (heap : Heap) (root : Nat) : Outcome :=
  checkLoop heap (get_reachable_graph heap root).2 (reachableSyms heap root) [] []

/-- Whether a symbol node is subject to duplicate checking: not a `FakeInfo`,
not a `Var` or `Decorator`, and not an overload variant. -/
def isChecked (s : Sym) : Bool :=
  !(s.kind == SymKind.fakeInfo) && !(s.kind == SymKind.var) &&
    !(s.kind == SymKind.decorator) &&
    !(s.kind == SymKind.funcDef && s.is_overload)

/-- The three exclusion-rule kinds of §4.2: variable-like entities, decorator
wrappers, and overload-variant function definitions. -/
def exemptKind (s : Sym) : Prop :=
  s.kind = SymKind.var ∨ s.kind = SymKind.decorator ∨
    (s.kind = SymKind.funcDef ∧ s.is_overload = true)

instance (s : Sym) : Decidable (exemptKind s) := by
  unfold exemptKind; infer_instance

/-- The first entity in a symbol list that is subject to duplicate checking
and bears the fully-qualified name `fn`. -/
def firstChecked (syms : List (Nat × Sym)) (fn : String) : Option (Nat × Sym) :=
  syms.find? (fun e => isChecked e.2 && (e.2.fullname == some fn))

/-- `pat` occurs as a contiguous substring of `s`. -/
def strContains (s pat : String) : Prop :=
  ∃ l r, s.data = l ++ pat.data ++ r

/-- A heap object wrapping a symbol node, with no outgoing references. -/
def symObj (s : Sym) : Obj :=
  { sym? := some s, extName := "", children := [] }

/-- A root list object with indexed references to identities `1 .. n`. -/
def rootObj (n : Nat) : Obj :=
  { sym? := none, extName := "list",
    children := (List.range n).map (fun k => (Attr.n (Int.ofNat k), k + 1)) }

/-- A heap consisting of a root list (identity 0) referencing one wrapped
symbol object per list element (identities 1, 2, ...). -/
def symHeap (l : List Sym) : Heap :=
  rootObj l.length :: l.map symObj

/-- Inhabited reachability: the root reaches itself, and follows structural
child edges to valid identities. -/
inductive Reachable (heap : Heap) (root : Nat) : Nat → Prop where
  | refl : root < heap.length → Reachable heap root root
  | step : ∀ p a c, Reachable heap root p → (a, c) ∈ childEdges heap p →
      c < heap.length → Reachable heap root c

/-! ### Graph walker lemmas -/

/-- Skipping a worklist entry drops the measure by exactly one. -/
theorem walkMeasure_skip (heap : Heap) (i : Nat) (e : Option (Nat × Attr))
    (rest : List (Nat × Option (Nat × Attr))) (seen : List Nat) :
    walkMeasure heap rest seen + 1 = walkMeasure heap ((i, e) :: rest) seen := by
  unfold walkMeasure
  simp [List.length_cons]
  omega

/-- Visiting a new valid identity also drops the measure by exactly one: the
consumed entry plus the children it pushes are paid for by removing the
identity from the unvisited sum. -/
theorem walkMeasure_visit (heap : Heap) (i : Nat) (e : Option (Nat × Attr))
    (rest : List (Nat × Option (Nat × Attr))) (seen : List Nat)
    (hi : i < heap.length) (hns : i ∉ seen) :
    walkMeasure heap
        (rest ++ (childEdges heap i).map (fun c => (c.2, some (i, c.1))))
        (seen ++ [i]) + 1 =
      walkMeasure heap ((i, e) :: rest) seen := by
  unfold walkMeasure
  have hset : (Finset.range heap.length).filter (fun j => j ∉ seen ++ [i]) =
      ((Finset.range heap.length).filter (fun j => j ∉ seen)).erase i := by
    ext j
    simp only [Finset.mem_filter, Finset.mem_erase, Finset.mem_range,
      List.mem_append, List.mem_singleton]
    tauto
  have hmem : i ∈ (Finset.range heap.length).filter (fun j => j ∉ seen) := by
    simp only [Finset.mem_filter, Finset.mem_range]
    exact ⟨hi, hns⟩
  have hsum : (∑ j in ((Finset.range heap.length).filter
        (fun j => j ∉ seen)).erase i, (childEdges heap j).length) +
      (childEdges heap i).length =
      ∑ j in (Finset.range heap.length).filter (fun j => j ∉ seen),
        (childEdges heap j).length := by
    simpa using Finset.sum_erase_add
      ((Finset.range heap.length).filter (fun j => j ∉ seen))
      (fun j => (childEdges heap j).length) hmem
  rw [hset]
  simp only [List.length_append, List.length_map, List.length_cons]
  omega

/-- Main invariant of the fuel-driven walker: with enough fuel, starting from
a duplicate-free visited list whose structural children are all either visited
or on the worklist, the final visited list is duplicate-free, extends the
initial one, contains every valid worklist target, and is closed under valid
child edges. -/
theorem walkF_spec (heap : Heap) :
    ∀ fuel wl seen parents,
      walkMeasure heap wl seen ≤ fuel →
      seen.Nodup →
      (∀ p ∈ seen, ∀ ac ∈ childEdges heap p, (ac : Attr × Nat).2 < heap.length →
        ac.2 ∈ seen ∨ ∃ e, (ac.2, e) ∈ wl) →
      (walkF heap fuel wl seen parents).1.Nodup ∧
      (∀ x ∈ seen, x ∈ (walkF heap fuel wl seen parents).1) ∧
      (∀ i e, (i, e) ∈ wl → i < heap.length →
        i ∈ (walkF heap fuel wl seen parents).1) ∧
      (∀ p ∈ (walkF heap fuel wl seen parents).1, ∀ ac ∈ childEdges heap p,
        (ac : Attr × Nat).2 < heap.length →
        ac.2 ∈ (walkF heap fuel wl seen parents).1) := by
  intro fuel
  induction fuel with
  | zero =>
    intro wl seen parents hfuel hnd hinv
    have hwl : wl = [] := by
      cases wl with
      | nil => rfl
      | cons hd tl =>
        exfalso
        unfold walkMeasure at hfuel
        simp [List.length_cons] at hfuel
    subst hwl
    simp only [walkF]
    refine ⟨hnd, fun x hx => hx, by simp, ?_⟩
    intro p hp ac hac hlt
    rcases hinv p hp ac hac hlt with h | ⟨e, he⟩
    · exact h
    · simp at he
  | succ fuel ih =>
    intro wl seen parents hfuel hnd hinv
    match wl with
    | [] =>
      simp only [walkF]
      refine ⟨hnd, fun x hx => hx, by simp, ?_⟩
      intro p hp ac hac hlt
      rcases hinv p hp ac hac hlt with h | ⟨e, he⟩
      · exact h
      · simp at he
    | (i, e) :: rest =>
      by_cases hc : i ∈ seen ∨ heap.length ≤ i
      · -- skip an already-visited or dangling entry
        simp only [walkF, if_pos hc]
        have hfuel' : walkMeasure heap rest seen ≤ fuel := by
          have := walkMeasure_skip heap i e rest seen
          omega
        have hinv' : ∀ p ∈ seen, ∀ ac ∈ childEdges heap p,
            (ac : Attr × Nat).2 < heap.length →
            ac.2 ∈ seen ∨ ∃ e', (ac.2, e') ∈ rest := by
          intro p hp ac hac hlt
          rcases hinv p hp ac hac hlt with h | ⟨e', he'⟩
          · exact Or.inl h
          · rcases List.mem_cons.mp he' with he'' | he''
            · left
              have hi2 : ac.2 = i := by
                have := congrArg Prod.fst he''
                simpa using this
              rcases hc with h1 | h1
              · rw [hi2]; exact h1
              · exfalso; rw [hi2] at hlt; omega
            · exact Or.inr ⟨e', he''⟩
        obtain ⟨r1, r2, r3, r4⟩ := ih rest seen parents hfuel' hnd hinv'
        refine ⟨r1, r2, ?_, r4⟩
        intro i' e' hmem hlt
        rcases List.mem_cons.mp hmem with h | h
        · have hi' : i' = i := by
            have := congrArg Prod.fst h
            simpa using this
          subst hi'
          rcases hc with h1 | h1
          · exact r2 i' h1
          · omega
        · exact r3 i' e' h hlt
      · -- visit a new valid identity
        have hc' := hc
        push_neg at hc'
        obtain ⟨hns, hi⟩ := hc'
        have hi' : i < heap.length := by omega
        simp only [walkF, if_neg hc]
        have hfuel' : walkMeasure heap
            (rest ++ (childEdges heap i).map (fun c => (c.2, some (i, c.1))))
            (seen ++ [i]) ≤ fuel := by
          have := walkMeasure_visit heap i e rest seen hi' hns
          omega
        have hnd' : (seen ++ [i]).Nodup := by
          simp [List.nodup_append, hnd, hns]
        have hinv' : ∀ p ∈ seen ++ [i], ∀ ac ∈ childEdges heap p,
            (ac : Attr × Nat).2 < heap.length →
            ac.2 ∈ seen ++ [i] ∨ ∃ e',
              (ac.2, e') ∈ rest ++ (childEdges heap i).map
                (fun c => (c.2, some (i, c.1))) := by
          intro p hp ac hac hlt
          rcases List.mem_append.mp hp with hp' | hp'
          · rcases hinv p hp' ac hac hlt with h | ⟨e', he'⟩
            · exact Or.inl (List.mem_append_left _ h)
            · rcases List.mem_cons.mp he' with he'' | he''
              · left
                have hi2 : ac.2 = i := by
                  have := congrArg Prod.fst he''
                  simpa using this
                rw [hi2]
                exact List.mem_append_right _ (by simp)
              · exact Or.inr ⟨e', List.mem_append_left _ he''⟩
          · have hpi : p = i := by simpa using hp'
            subst hpi
            right
            exact ⟨some (p, ac.1), List.mem_append_right _
              (List.mem_map.mpr ⟨ac, hac, rfl⟩)⟩
        cases e with
        | none =>
          obtain ⟨r1, r2, r3, r4⟩ := ih
            (rest ++ (childEdges heap i).map (fun c => (c.2, some (i, c.1))))
            (seen ++ [i]) parents hfuel' hnd' hinv'
          refine ⟨r1, ?_, ?_, r4⟩
          · intro x hx
            exact r2 x (List.mem_append_left _ hx)
          · intro i' e' hmem hlt
            rcases List.mem_cons.mp hmem with h | h
            · have hi2 : i' = i := by
                have := congrArg Prod.fst h
                simpa using this
              subst hi2
              exact r2 i' (List.mem_append_right _ (by simp))
            · exact r3 i' e' (List.mem_append_left _ h) hlt
        | some pe =>
          obtain ⟨r1, r2, r3, r4⟩ := ih
            (rest ++ (childEdges heap i).map (fun c => (c.2, some (i, c.1))))
            (seen ++ [i]) (parents ++ [(i, pe)]) hfuel' hnd' hinv'
          refine ⟨r1, ?_, ?_, r4⟩
          · intro x hx
            exact r2 x (List.mem_append_left _ hx)
          · intro i' e' hmem hlt
            rcases List.mem_cons.mp hmem with h | h
            · have hi2 : i' = i := by
                have := congrArg Prod.fst h
                simpa using this
              subst hi2
              exact r2 i' (List.mem_append_right _ (by simp))
            · exact r3 i' e' (List.mem_append_left _ h) hlt

/-- The visited list never contains an identity twice. -/
theorem seen_nodup (heap : Heap) (root : Nat) :
    (get_reachable_graph heap root).1.Nodup := by
  have h := walkF_spec heap (walkMeasure heap [(root, none)] [])
    [(root, none)] [] [] (le_refl _) List.nodup_nil (by simp)
  exact h.1

/-- A valid root is visited. -/
theorem root_mem_seen (heap : Heap) (root : Nat) (h : root < heap.length) :
    root ∈ (get_reachable_graph heap root).1 := by
  have hs := walkF_spec heap (walkMeasure heap [(root, none)] [])
    [(root, none)] [] [] (le_refl _) List.nodup_nil (by simp)
  exact hs.2.2.1 root none (by simp) h

/-- The visited list is closed under valid structural child edges. -/
theorem seen_closed (heap : Heap) (root : Nat) :
    ∀ p ∈ (get_reachable_graph heap root).1, ∀ ac ∈ childEdges heap p,
      (ac : Attr × Nat).2 < heap.length →
      ac.2 ∈ (get_reachable_graph heap root).1 := by
  have hs := walkF_spec heap (walkMeasure heap [(root, none)] [])
    [(root, none)] [] [] (le_refl _) List.nodup_nil (by simp)
  exact hs.2.2.2

/-- Every reachable identity is visited. -/
theorem mem_seen_of_reachable (heap : Heap) (root : Nat) :
    ∀ x, Reachable heap root x → x ∈ (get_reachable_graph heap root).1 := by
  intro x hx
  induction hx with
  | refl h => exact root_mem_seen heap root h
  | step p a c _hp hmem hlt ihp => exact seen_closed heap root p ihp (a, c) hmem hlt

/-! ### String helper lemmas -/

theorem sdata_append (a b : String) : (a ++ b).data = a.data ++ b.data := rfl

theorem sappend_assoc (a b c : String) : a ++ b ++ c = a ++ (b ++ c) := by
  apply String.ext
  simp [sdata_append]

theorem sappend_empty (a : String) : a ++ "" = a := by
  apply String.ext
  simp [sdata_append]

theorem sjoin_cons (a : String) (l : List String) :
    String.join (a :: l) = a ++ String.join l := by
  apply String.ext
  simp [String.data_join, sdata_append]

/-! ### Checker step lemmas -/

/-- `isChecked` unfolded into its four conjuncts. -/
theorem isChecked_iff (s : Sym) : isChecked s = true ↔
    s.kind ≠ SymKind.fakeInfo ∧ s.kind ≠ SymKind.var ∧
      s.kind ≠ SymKind.decorator ∧
      ¬(s.kind = SymKind.funcDef ∧ s.is_overload = true) := by
  rcases s with ⟨k, fn, ov, nm⟩
  cases k <;> cases ov <;> simp [isChecked]

/-- `isChecked` is false exactly for the skipped kinds. -/
theorem isChecked_false_iff (s : Sym) : isChecked s = false ↔
    (s.kind = SymKind.fakeInfo ∨ s.kind = SymKind.var ∨
      s.kind = SymKind.decorator ∨
      (s.kind = SymKind.funcDef ∧ s.is_overload = true)) := by
  rcases s with ⟨k, fn, ov, nm⟩
  cases k <;> cases ov <;> simp [isChecked]

/-- An exempt kind is never subject to duplicate checking. -/
theorem isChecked_false_of_exempt {s : Sym} (h : exemptKind s) :
    isChecked s = false := by
  rw [isChecked_false_iff]
  rcases h with h | h | h
  · exact Or.inr (Or.inl h)
  · exact Or.inr (Or.inr (Or.inl h))
  · exact Or.inr (Or.inr (Or.inr h))

/-- A `FakeInfo` entity is skipped outright. -/
theorem checkLoop_fake {heap parents i sym rest m out}
    (h : sym.kind = SymKind.fakeInfo) :
    checkLoop heap parents ((i, sym) :: rest) m out =
      checkLoop heap parents rest m out := by
  simp only [checkLoop, if_pos h]

/-- A non-`FakeInfo` entity with an absent name fails
`assert fn is not None` immediately, with no extra output. -/
theorem checkLoop_noneName {heap parents i sym rest m out}
    (h1 : sym.kind ≠ SymKind.fakeInfo) (h2 : sym.fullname = none) :
    checkLoop heap parents ((i, sym) :: rest) m out =
      Outcome.assertionError out := by
  simp only [checkLoop, if_neg h1, h2]

/-- An entity not subject to duplicate checking, with a present name, is
skipped with the state unchanged. -/
theorem checkLoop_unchecked {heap parents i sym rest m out fn}
    (h1 : isChecked sym = false) (h2 : sym.fullname = some fn) :
    checkLoop heap parents ((i, sym) :: rest) m out =
      checkLoop heap parents rest m out := by
  rcases (isChecked_false_iff sym).mp h1 with h | h | h | h
  · exact checkLoop_fake h
  · have hnf : sym.kind ≠ SymKind.fakeInfo := by rw [h]; intro hx; cases hx
    simp only [checkLoop, if_neg hnf, h2, if_pos (Or.inl h)]
  · have hnf : sym.kind ≠ SymKind.fakeInfo := by rw [h]; intro hx; cases hx
    simp only [checkLoop, if_neg hnf, h2, if_pos (Or.inr h)]
  · have hnf : sym.kind ≠ SymKind.fakeInfo := by rw [h.1]; intro hx; cases hx
    have hnv : ¬(sym.kind = SymKind.var ∨ sym.kind = SymKind.decorator) := by
      rw [h.1]; rintro (hx | hx) <;> cases hx
    simp only [checkLoop, if_neg hnf, h2, if_neg hnv, if_pos h]

/-- A checked entity whose name is unseen is recorded
(`m[sym.fullname] = sym`) and the loop continues. -/
theorem checkLoop_record {heap parents i sym rest m out fn}
    (h1 : isChecked sym = true) (h2 : sym.fullname = some fn)
    (h3 : lookupM m fn = none) :
    checkLoop heap parents ((i, sym) :: rest) m out =
      checkLoop heap parents rest (m ++ [(fn, i, sym)]) out := by
  obtain ⟨hnf, hnv, hnd, hno⟩ := (isChecked_iff sym).mp h1
  have hnvd : ¬(sym.kind = SymKind.var ∨ sym.kind = SymKind.decorator) := by
    rintro (hx | hx)
    · exact hnv hx
    · exact hnd hx
  simp only [checkLoop, if_neg hnf, h2, if_neg hnvd, if_neg hno, h3]

/-- A checked entity colliding with a previously-recorded entity of a
different concrete kind is skipped: no output, no failure, and the grouping
map binding is left unchanged. -/
theorem checkLoop_collide_skip {heap parents i sym rest m out fn j prev}
    (h1 : isChecked sym = true) (h2 : sym.fullname = some fn)
    (h3 : lookupM m fn = some (j, prev)) (h4 : sym.kind ≠ prev.kind) :
    checkLoop heap parents ((i, sym) :: rest) m out =
      checkLoop heap parents rest m out := by
  obtain ⟨hnf, hnv, hnd, hno⟩ := (isChecked_iff sym).mp h1
  have hnvd : ¬(sym.kind = SymKind.var ∨ sym.kind = SymKind.decorator) := by
    rintro (hx | hx)
    · exact hnv hx
    · exact hnd hx
  simp only [checkLoop, if_neg hnf, h2, if_neg hnvd, if_neg hno, h3,
    if_neg h4]

/-- A checked entity colliding with a previously-recorded entity of the same
concrete kind prints the diagnostic lines and fails
`assert sym.fullname not in m`. -/
theorem checkLoop_collide_raise {heap parents i sym rest m out fn j prev}
    (h1 : isChecked sym = true) (h2 : sym.fullname = some fn)
    (h3 : lookupM m fn = some (j, prev)) (h4 : sym.kind = prev.kind) :
    checkLoop heap parents ((i, sym) :: rest) m out =
      Outcome.assertionError (out ++ dupLines heap parents i j sym prev fn) := by
  obtain ⟨hnf, hnv, hnd, hno⟩ := (isChecked_iff sym).mp h1
  have hnvd : ¬(sym.kind = SymKind.var ∨ sym.kind = SymKind.decorator) := by
    rintro (hx | hx)
    · exact hnv hx
    · exact hnd hx
  simp only [checkLoop, if_neg hnf, h2, if_neg hnvd, if_neg hno, h3,
    if_pos h4]

/-- Each loop step either raises, or continues on the tail with some grouping
map and the same output. -/
theorem checkLoop_step_cases (heap : Heap) (parents : List (Nat × Nat × Attr))
    (i : Nat) (sym : Sym) (rest : List (Nat × Sym))
    (m : List (String × Nat × Sym)) (out : List String) :
    (∃ o, checkLoop heap parents ((i, sym) :: rest) m out =
      Outcome.assertionError o) ∨
    (∃ m', checkLoop heap parents ((i, sym) :: rest) m out =
      checkLoop heap parents rest m' out) := by
  by_cases hf : sym.kind = SymKind.fakeInfo
  · exact Or.inr ⟨m, checkLoop_fake hf⟩
  cases hfn : sym.fullname with
  | none => exact Or.inl ⟨out, checkLoop_noneName hf hfn⟩
  | some fn =>
    cases hchk : isChecked sym with
    | false => exact Or.inr ⟨m, checkLoop_unchecked hchk hfn⟩
    | true =>
      cases hl : lookupM m fn with
      | none => exact Or.inr ⟨m ++ [(fn, i, sym)], checkLoop_record hchk hfn hl⟩
      | some jp =>
        obtain ⟨j, prev⟩ := jp
        by_cases hk : sym.kind = prev.kind
        · exact Or.inl ⟨_, checkLoop_collide_raise hchk hfn hl hk⟩
        · exact Or.inr ⟨m, checkLoop_collide_skip hchk hfn hl hk⟩

/-! ### Grouping-map lemmas -/

theorem lookupM_nil (fn : String) : lookupM [] fn = none := rfl

theorem lookupM_cons (hd : String × Nat × Sym) (tl : List (String × Nat × Sym))
    (fn : String) :
    lookupM (hd :: tl) fn = if hd.1 == fn then some hd.2 else lookupM tl fn := by
  by_cases h : hd.1 == fn <;> simp [lookupM, List.find?_cons, h]

theorem lookupM_append (m l : List (String × Nat × Sym)) (fn : String) :
    lookupM (m ++ l) fn =
      match lookupM m fn with
      | some v => some v
      | none => lookupM l fn := by
  induction m with
  | nil => simp [lookupM]
  | cons hd tl ihm =>
    rw [List.cons_append, lookupM_cons, lookupM_cons]
    by_cases h : hd.1 == fn <;> simp [h, ihm]

theorem firstChecked_cons (hd : Nat × Sym) (tl : List (Nat × Sym)) (fn : String) :
    firstChecked (hd :: tl) fn =
      if isChecked hd.2 && (hd.2.fullname == some fn) then some hd
      else firstChecked tl fn := by
  by_cases h : isChecked hd.2 && (hd.2.fullname == some fn) <;>
    simp [firstChecked, List.find?_cons, h]

/-! ### Checker loop lemmas -/

/-- Appending symbol lists: the check runs the prefix first and, when it
survives, continues on the suffix from the resulting state. -/
theorem checkLoop_append (heap : Heap) (parents : List (Nat × Nat × Attr))
    (xs : List (Nat × Sym)) : ∀ ys m out,
    checkLoop heap parents (xs ++ ys) m out =
      match checkLoop heap parents xs m out with
      | Outcome.ok m' out' => checkLoop heap parents ys m' out'
      | Outcome.assertionError o => Outcome.assertionError o := by
  induction xs with
  | nil => intro ys m out; rfl
  | cons hd tl ihx =>
    obtain ⟨k, t⟩ := hd
    intro ys m out
    rw [List.cons_append]
    by_cases hf : t.kind = SymKind.fakeInfo
    · rw [checkLoop_fake hf, checkLoop_fake hf, ihx]
    cases hfn : t.fullname with
    | none => rw [checkLoop_noneName hf hfn, checkLoop_noneName hf hfn]
    | some fn =>
      cases hchk : isChecked t with
      | false => rw [checkLoop_unchecked hchk hfn, checkLoop_unchecked hchk hfn, ihx]
      | true =>
        cases hl : lookupM m fn with
        | none => rw [checkLoop_record hchk hfn hl, checkLoop_record hchk hfn hl, ihx]
        | some jp =>
          obtain ⟨j, prev⟩ := jp
          by_cases hk : t.kind = prev.kind
          · rw [checkLoop_collide_raise hchk hfn hl hk,
              checkLoop_collide_raise hchk hfn hl hk]
          · rw [checkLoop_collide_skip hchk hfn hl hk,
              checkLoop_collide_skip hchk hfn hl hk, ihx]

/-- A surviving prefix followed by a checked entity whose name is bound to a
same-kind entity raises, printing the diagnostic lines after the prefix's
output. -/
theorem checkLoop_raise_after (heap : Heap) (parents : List (Nat × Nat × Attr))
    (pre : List (Nat × Sym)) {k : Nat} {s3 : Sym} (post : List (Nat × Sym))
    {m : List (String × Nat × Sym)} {out : List String} {i : Nat} {s1 : Sym}
    {fn : String}
    (hpre : checkLoop heap parents pre [] [] = Outcome.ok m out)
    (hbind : lookupM m fn = some (i, s1))
    (hname : s3.fullname = some fn) (hchk : isChecked s3 = true)
    (hkind : s3.kind = s1.kind) :
    checkLoop heap parents (pre ++ (k, s3) :: post) [] [] =
      Outcome.assertionError (out ++ dupLines heap parents k i s3 s1 fn) := by
  rw [checkLoop_append, hpre]
  exact checkLoop_collide_raise hchk hname hbind hkind

/-- If any entity in the list other than a `FakeInfo` has an absent name, the
loop raises (regardless of every other entity). -/
theorem checkLoop_raised_of_none (heap : Heap) (parents : List (Nat × Nat × Attr))
    (syms : List (Nat × Sym)) : ∀ m out i s, (i, s) ∈ syms →
      s.kind ≠ SymKind.fakeInfo → s.fullname = none →
      (checkLoop heap parents syms m out).raised = true := by
  induction syms with
  | nil => intro m out i s h; simp at h
  | cons hd tl ihs =>
    obtain ⟨k, t⟩ := hd
    intro m out i s hmem hk hn
    rcases List.mem_cons.mp hmem with h | h
    · injection h with h1 h2
      subst h1; subst h2
      rw [checkLoop_noneName hk hn]
      rfl
    · rcases checkLoop_step_cases heap parents k t tl m out with ⟨o, ho⟩ | ⟨m', hm'⟩
      · rw [ho]; rfl
      · rw [hm']; exact ihs m' out i s h hk hn

/-- A run that returns normally printed nothing beyond the initial output. -/
theorem checkLoop_ok_out (heap : Heap) (parents : List (Nat × Nat × Attr))
    (syms : List (Nat × Sym)) : ∀ m out m' out',
    checkLoop heap parents syms m out = Outcome.ok m' out' → out' = out := by
  induction syms with
  | nil =>
    intro m out m' out' h
    injection h with h1 h2
    exact h2.symm
  | cons hd tl ihs =>
    obtain ⟨k, t⟩ := hd
    intro m out m' out' h
    rcases checkLoop_step_cases heap parents k t tl m out with ⟨o, ho⟩ | ⟨m2, hm2⟩
    · rw [ho] at h; cases h
    · rw [hm2] at h; exact ihs m2 out m' out' h

/-- If every non-`FakeInfo` entity has a present name, every checked entity's
name is fresh in the grouping map, and no two checked entities share a name,
the loop returns normally with no further output. -/
theorem checkLoop_ok_of_distinct (heap : Heap) (parents : List (Nat × Nat × Attr))
    (syms : List (Nat × Sym)) : ∀ m out,
    (∀ e ∈ syms, (e : Nat × Sym).2.kind ≠ SymKind.fakeInfo → e.2.fullname ≠ none) →
    (∀ e ∈ syms, isChecked (e : Nat × Sym).2 = true → ∀ fn,
      e.2.fullname = some fn → lookupM m fn = none) →
    List.Pairwise (fun a b : Nat × Sym => isChecked a.2 = true →
      isChecked b.2 = true → a.2.fullname ≠ b.2.fullname) syms →
    ∃ m', checkLoop heap parents syms m out = Outcome.ok m' out := by
  induction syms with
  | nil => intro m out _ _ _; exact ⟨m, rfl⟩
  | cons hd tl ihs =>
    obtain ⟨k, t⟩ := hd
    intro m out hnames hfresh hpw
    have hpw' := List.pairwise_cons.mp hpw
    have hnames' : ∀ e ∈ tl, (e : Nat × Sym).2.kind ≠ SymKind.fakeInfo →
        e.2.fullname ≠ none :=
      fun e he => hnames e (List.mem_cons_of_mem _ he)
    by_cases hf : t.kind = SymKind.fakeInfo
    · rw [checkLoop_fake hf]
      exact ihs m out hnames'
        (fun e he => hfresh e (List.mem_cons_of_mem _ he)) hpw'.2
    cases hfn : t.fullname with
    | none => exact absurd hfn (hnames (k, t) (List.mem_cons_self _ _) hf)
    | some fn =>
      cases hchk : isChecked t with
      | false =>
        rw [checkLoop_unchecked hchk hfn]
        exact ihs m out hnames'
          (fun e he => hfresh e (List.mem_cons_of_mem _ he)) hpw'.2
      | true =>
        have hl : lookupM m fn = none :=
          hfresh (k, t) (List.mem_cons_self _ _) hchk fn hfn
        rw [checkLoop_record hchk hfn hl]
        apply ihs (m ++ [(fn, k, t)]) out hnames' ?fresh hpw'.2
        case fresh =>
          intro e he hech fn' hefn
          have h1 : lookupM m fn' = none :=
            hfresh e (List.mem_cons_of_mem _ he) hech fn' hefn
          have h2 : fn ≠ fn' := by
            intro hEq
            apply hpw'.1 e he hchk hech
            rw [hfn, hefn, hEq]
          rw [lookupM_append, h1, lookupM_cons]
          simp [h2, lookupM_nil]

/-- Bindings present in the grouping map survive a normally-returning run:
keys are inserted only when absent and never overwritten or removed. -/
theorem checkLoop_ok_preserves (heap : Heap) (parents : List (Nat × Nat × Attr))
    (syms : List (Nat × Sym)) : ∀ m out m' out' fn v,
    checkLoop heap parents syms m out = Outcome.ok m' out' →
    lookupM m fn = some v → lookupM m' fn = some v := by
  induction syms with
  | nil =>
    intro m out m' out' fn v h hv
    injection h with h1 h2
    rw [← h1]; exact hv
  | cons hd tl ihs =>
    obtain ⟨k, t⟩ := hd
    intro m out m' out' fn v h hv
    by_cases hf : t.kind = SymKind.fakeInfo
    · rw [checkLoop_fake hf] at h; exact ihs m out m' out' fn v h hv
    cases hfn : t.fullname with
    | none => rw [checkLoop_noneName hf hfn] at h; cases h
    | some fn0 =>
      cases hchk : isChecked t with
      | false =>
        rw [checkLoop_unchecked hchk hfn] at h; exact ihs m out m' out' fn v h hv
      | true =>
        cases hl : lookupM m fn0 with
        | none =>
          rw [checkLoop_record hchk hfn hl] at h
          refine ihs _ out m' out' fn v h ?_
          rw [lookupM_append, hv]
        | some jp =>
          obtain ⟨j, prev⟩ := jp
          by_cases hk : t.kind = prev.kind
          · rw [checkLoop_collide_raise hchk hfn hl hk] at h; cases h
          · rw [checkLoop_collide_skip hchk hfn hl hk] at h
            exact ihs m out m' out' fn v h hv

/-- In a normally-returning run, a name unbound at the start ends up bound to
the first checked entity bearing it (or stays unbound if there is none). -/
theorem checkLoop_ok_first (heap : Heap) (parents : List (Nat × Nat × Attr))
    (syms : List (Nat × Sym)) : ∀ m out m' out' fn,
    checkLoop heap parents syms m out = Outcome.ok m' out' →
    lookupM m fn = none →
    lookupM m' fn = firstChecked syms fn := by
  induction syms with
  | nil =>
    intro m out m' out' fn h hn
    injection h with h1 h2
    rw [← h1]
    exact hn
  | cons hd tl ihs =>
    obtain ⟨k, t⟩ := hd
    intro m out m' out' fn h hn
    rw [firstChecked_cons]
    by_cases hf : t.kind = SymKind.fakeInfo
    · rw [checkLoop_fake hf] at h
      have hcf : isChecked t = false := (isChecked_false_iff t).mpr (Or.inl hf)
      rw [if_neg (by simp [hcf])]
      exact ihs m out m' out' fn h hn
    cases hfn : t.fullname with
    | none => rw [checkLoop_noneName hf hfn] at h; cases h
    | some fn0 =>
      cases hchk : isChecked t with
      | false =>
        rw [checkLoop_unchecked hchk hfn] at h
        rw [if_neg (by simp [hchk])]
        exact ihs m out m' out' fn h hn
      | true =>
        cases hl : lookupM m fn0 with
        | none =>
          rw [checkLoop_record hchk hfn hl] at h
          by_cases hEq : fn0 = fn
          · subst hEq
            rw [if_pos (by simp [hchk, hfn])]
            refine checkLoop_ok_preserves heap parents tl _ out m' out' fn0
              (k, t) h ?_
            rw [lookupM_append, hn, lookupM_cons]
            simp
          · rw [if_neg (by simp [hfn, hEq])]
            refine ihs _ out m' out' fn h ?_
            rw [lookupM_append, hn, lookupM_cons]
            simp [hEq, lookupM_nil]
        | some jp =>
          obtain ⟨j, prev⟩ := jp
          by_cases hk : t.kind = prev.kind
          · rw [checkLoop_collide_raise hchk hfn hl hk] at h; cases h
          · rw [checkLoop_collide_skip hchk hfn hl hk] at h
            have hEq : fn0 ≠ fn := by
              intro hx; subst hx; rw [hn] at hl; cases hl
            rw [if_neg (by simp [hfn, hEq])]
            exact ihs m out m' out' fn h hn

/-- Removing the `FakeInfo` entities from the processed list leaves the whole
outcome — failure or success, and every line of output — unchanged. -/
theorem checkLoop_filter_fake (heap : Heap) (parents : List (Nat × Nat × Attr))
    (syms : List (Nat × Sym)) : ∀ m out,
    checkLoop heap parents syms m out =
      checkLoop heap parents
        (syms.filter (fun e => !(e.2.kind == SymKind.fakeInfo))) m out := by
  induction syms with
  | nil => intro m out; rfl
  | cons hd tl ihs =>
    obtain ⟨k, t⟩ := hd
    intro m out
    by_cases hf : t.kind = SymKind.fakeInfo
    · rw [checkLoop_fake hf]
      rw [List.filter_cons]
      simp only [hf, beq_self_eq_true, Bool.not_true, Bool.false_eq_true,
        if_false]
      exact ihs m out
    · rw [List.filter_cons]
      have hkeep : (!(k, t).2.kind == SymKind.fakeInfo) = true := by
        simp [beq_iff_eq, hf]
      simp only [hkeep, if_true]
      -- both sides now process the common head (k, t) first
      cases hfn : t.fullname with
      | none =>
        rw [checkLoop_noneName hf hfn, checkLoop_noneName hf hfn]
      | some fn =>
        cases hchk : isChecked t with
        | false =>
          rw [checkLoop_unchecked hchk hfn, checkLoop_unchecked hchk hfn, ihs]
        | true =>
          cases hl : lookupM m fn with
          | none =>
            rw [checkLoop_record hchk hfn hl, checkLoop_record hchk hfn hl, ihs]
          | some jp =>
            obtain ⟨j, prev⟩ := jp
            by_cases hk : t.kind = prev.kind
            · rw [checkLoop_collide_raise hchk hfn hl hk,
                checkLoop_collide_raise hchk hfn hl hk]
            · rw [checkLoop_collide_skip hchk hfn hl hk,
                checkLoop_collide_skip hchk hfn hl hk, ihs]

/-! ### Renderer lemmas -/

/-- One loop iteration appends exactly the §4.3 fragment for its step. -/
theorem pathStep_eq (result : String) (step : Attr × Obj) :
    pathStep result step = result ++ renderFragment step := by
  unfold pathStep renderFragment
  split_ifs <;> simp [sappend_assoc]

theorem foldl_pathStep (path : List (Attr × Obj)) : ∀ acc : String,
    path.foldl pathStep acc = acc ++ String.join (path.map renderFragment) := by
  induction path with
  | nil =>
    intro acc
    simp only [List.foldl_nil, List.map_nil]
    rw [show String.join [] = "" from rfl, sappend_empty]
  | cons hd tl ihp =>
    intro acc
    rw [List.foldl_cons, ihp, List.map_cons, sjoin_cons, pathStep_eq,
      sappend_assoc]

/-- The colliding fully-qualified name occurs verbatim inside the duplicate
header line. -/
theorem strContains_dupHeader (k : SymKind) (fn : String) :
    strContains (dupHeader k fn) fn := by
  refine ⟨("\nDuplicate '" ++ k.typeName ++ "' nodes with fullname '").data,
    "' found:".data, ?_⟩
  unfold dupHeader
  simp [sdata_append, List.append_assoc]

/-! ### Claim theorems -/

/-- C7: for every path, the rendered string begins with the literal root
marker `"<root>"` and appends, in order, one fragment per `(label, object)`
step: a subscript `[repr(label)]` for the container kinds (`dict`, `tuple`,
`SymbolTable`, `list`); `.label(Kind:name)` for a `Var`; a bare `.label` for
`BuildManager` / `FineGrainedBuildManager`; and `.label(Kind)` for every
other object. -/
theorem C7_path_renders_root_marker_and_fragments (path : List (Attr × Obj)) :
    path_to_str path = "<root>" ++ String.join (path.map renderFragment) := by
  unfold path_to_str
  exact foldl_pathStep path "<root>"

/-- C8: for every graph containing a reference cycle (`a` references `b` and
`b` references `a`) reachable from the root, the traversal terminates
(`get_reachable_graph` is a total function, defined by fuel whose sufficiency
is proved in `walkF_spec`) and both `a` and `b` appear exactly once as keys of
the returned visited map. -/
theorem C8_cycle_safe (heap : Heap) (root a b : Nat) (la lb : Attr)
    (ha : Reachable heap root a)
    (hab : (la, b) ∈ childEdges heap a)
    (hba : (lb, a) ∈ childEdges heap b)
    (hb : b < heap.length) :
    (get_reachable_graph heap root).1.count a = 1 ∧
    (get_reachable_graph heap root).1.count b = 1 := by
  have hnd := seen_nodup heap root
  have hma := mem_seen_of_reachable heap root a ha
  have hmb := seen_closed heap root a hma (la, b) hab hb
  exact ⟨List.count_eq_one_of_mem hnd hma, List.count_eq_one_of_mem hnd hmb⟩

/-- Concrete two-node reference cycle under a root list, for `C8_cycle_safe`. -/
def cycleHeap : Heap :=
  [{ sym? := none, extName := "list", children := [(Attr.s "a", 1)] },
   { sym? := none, extName := "C", children := [(Attr.s "b", 2)] },
   { sym? := none, extName := "C", children := [(Attr.s "a", 1)] }]

theorem C8_cycle_safe_witness :
    (get_reachable_graph cycleHeap 0).1.count 1 = 1 ∧
    (get_reachable_graph cycleHeap 0).1.count 2 = 1 :=
  C8_cycle_safe cycleHeap 0 1 2 (Attr.s "b") (Attr.s "a")
    (Reachable.step 0 (Attr.s "a") 1 (Reachable.refl (by decide)) (by decide)
      (by decide))
    (by decide) (by decide) (by decide)

/-- C1 (counterexample): the claim as stated is false.  A graph whose
reachable symbol nodes are a `TypeInfo` named `"pkg.mod.Foo"` followed by two
`MypyFile`s with the same name contains two same-kind, non-excluded
`NameableEntity`s sharing a fully-qualified name, yet `check_consistency`
completes without raising and emits no diagnostic output: the first-seen
`TypeInfo` occupies the grouping-map binding, and each later `MypyFile`
collision is skipped as a kind change. -/
theorem C1_counterexample :
    (2, (⟨SymKind.mypyFile, some "pkg.mod.Foo", false, ""⟩ : Sym)) ∈
      reachableSyms (symHeap [⟨SymKind.typeInfo, some "pkg.mod.Foo", false, ""⟩,
        ⟨SymKind.mypyFile, some "pkg.mod.Foo", false, ""⟩,
        ⟨SymKind.mypyFile, some "pkg.mod.Foo", false, ""⟩]) 0 ∧
    (3, (⟨SymKind.mypyFile, some "pkg.mod.Foo", false, ""⟩ : Sym)) ∈
      reachableSyms (symHeap [⟨SymKind.typeInfo, some "pkg.mod.Foo", false, ""⟩,
        ⟨SymKind.mypyFile, some "pkg.mod.Foo", false, ""⟩,
        ⟨SymKind.mypyFile, some "pkg.mod.Foo", false, ""⟩]) 0 ∧
    isChecked ⟨SymKind.mypyFile, some "pkg.mod.Foo", false, ""⟩ = true ∧
    (check_consistency (symHeap [⟨SymKind.typeInfo, some "pkg.mod.Foo", false, ""⟩,
        ⟨SymKind.mypyFile, some "pkg.mod.Foo", false, ""⟩,
        ⟨SymKind.mypyFile, some "pkg.mod.Foo", false, ""⟩]) 0).raised = false ∧
    (check_consistency (symHeap [⟨SymKind.typeInfo, some "pkg.mod.Foo", false, ""⟩,
        ⟨SymKind.mypyFile, some "pkg.mod.Foo", false, ""⟩,
        ⟨SymKind.mypyFile, some "pkg.mod.Foo", false, ""⟩]) 0).output = [] := by
  decide

/-- C1 (amended): if, in discovery order, the entities before the second
member of the duplicate pair are checked without violation, leaving the first
member recorded in the grouping map under the shared fully-qualified name,
and the second member has the same concrete kind and is not excluded, then
`check_consistency` raises the fatal assertion failure and the diagnostic
output includes that fully-qualified name. -/
theorem C1_amended_true_duplicate_detected (heap : Heap) (root : Nat)
    (pre post : List (Nat × Sym)) (k i : Nat) (s3 s1 : Sym) (fn : String)
    (m : List (String × Nat × Sym)) (out : List String)
    (hsyms : reachableSyms heap root = pre ++ (k, s3) :: post)
    (hpre : checkLoop heap (get_reachable_graph heap root).2 pre [] [] =
      Outcome.ok m out)
    (hbind : lookupM m fn = some (i, s1))
    (hname : s3.fullname = some fn)
    (hchk : isChecked s3 = true)
    (hkind : s3.kind = s1.kind) :
    (check_consistency heap root).raised = true ∧
    ∃ line ∈ (check_consistency heap root).output, strContains line fn := by
  have hrun : check_consistency heap root = Outcome.assertionError
      (out ++ dupLines heap (get_reachable_graph heap root).2 k i s3 s1 fn) := by
    unfold check_consistency
    rw [hsyms]
    exact checkLoop_raise_after heap _ pre post hpre hbind hname hchk hkind
  constructor
  · rw [hrun]; rfl
  · rw [hrun]
    refine ⟨dupHeader s3.kind fn, ?_, strContains_dupHeader s3.kind fn⟩
    simp [Outcome.output, dupLines, DUMP_MISMATCH_NODES]

theorem C1_amended_true_duplicate_detected_witness :
    (check_consistency (symHeap [⟨SymKind.mypyFile, some "pkg.mod.Foo", false, ""⟩,
        ⟨SymKind.mypyFile, some "pkg.mod.Foo", false, ""⟩]) 0).raised = true ∧
    ∃ line ∈ (check_consistency (symHeap
        [⟨SymKind.mypyFile, some "pkg.mod.Foo", false, ""⟩,
         ⟨SymKind.mypyFile, some "pkg.mod.Foo", false, ""⟩]) 0).output,
      strContains line "pkg.mod.Foo" :=
  C1_amended_true_duplicate_detected
    (symHeap [⟨SymKind.mypyFile, some "pkg.mod.Foo", false, ""⟩,
      ⟨SymKind.mypyFile, some "pkg.mod.Foo", false, ""⟩]) 0
    [(1, ⟨SymKind.mypyFile, some "pkg.mod.Foo", false, ""⟩)] [] 2 1
    ⟨SymKind.mypyFile, some "pkg.mod.Foo", false, ""⟩
    ⟨SymKind.mypyFile, some "pkg.mod.Foo", false, ""⟩ "pkg.mod.Foo"
    [("pkg.mod.Foo", 1, ⟨SymKind.mypyFile, some "pkg.mod.Foo", false, ""⟩)] []
    (by decide) (by decide) (by decide) rfl (by decide) rfl

/-- C2 (counterexample): the claim as stated is false.  A reachable
`SymbolNode` that is a `FakeInfo` with an absent fully-qualified name does not
make `check_consistency` raise: `FakeInfo` instances are skipped before the
absent-name assertion. -/
theorem C2_counterexample :
    (1, (⟨SymKind.fakeInfo, none, false, ""⟩ : Sym)) ∈
      reachableSyms (symHeap [⟨SymKind.fakeInfo, none, false, ""⟩]) 0 ∧
    (check_consistency (symHeap [⟨SymKind.fakeInfo, none, false, ""⟩]) 0).raised
      = false := by
  decide

/-- C2 (amended): every reachable `NameableEntity` other than a `FakeInfo`
placeholder with an absent (`None`) fully-qualified name makes
`check_consistency` raise, independent of any other entity in the graph; the
absent-name check is applied before the exclusion rules, so it covers the
variable-like, decorator and overload-variant kinds as well. -/
theorem C2_amended_absent_name_fatal (heap : Heap) (root i : Nat) (s : Sym)
    (hmem : (i, s) ∈ reachableSyms heap root)
    (hkind : s.kind ≠ SymKind.fakeInfo)
    (hnone : s.fullname = none) :
    (check_consistency heap root).raised = true := by
  unfold check_consistency
  exact checkLoop_raised_of_none heap (get_reachable_graph heap root).2
    (reachableSyms heap root) [] [] i s hmem hkind hnone

theorem C2_amended_absent_name_fatal_witness :
    (check_consistency (symHeap [⟨SymKind.var, none, false, "v"⟩]) 0).raised
      = true :=
  C2_amended_absent_name_fatal (symHeap [⟨SymKind.var, none, false, "v"⟩]) 0 1
    ⟨SymKind.var, none, false, "v"⟩ (by decide) (by decide) rfl

/-- C3: a collision between a newly-seen checked entity and the
previously-recorded entity of a different concrete kind is not a violation:
the loop step neither raises nor emits output nor changes the grouping map
(first conjunct), and a graph whose reachable symbol nodes are exactly two
entities sharing a fully-qualified name but of different concrete kinds is
checked without raising and without output (second conjunct). -/
theorem C3_kind_change_tolerated :
    (∀ (heap : Heap) (parents : List (Nat × Nat × Attr)) (k : Nat) (s : Sym)
      (rest : List (Nat × Sym)) (m : List (String × Nat × Sym))
      (out : List String) (j : Nat) (prev : Sym) (fn : String),
      s.fullname = some fn → isChecked s = true →
      lookupM m fn = some (j, prev) → s.kind ≠ prev.kind →
      checkLoop heap parents ((k, s) :: rest) m out =
        checkLoop heap parents rest m out) ∧
    (∀ s1 s2 : Sym, ∀ fn : String, s1.fullname = some fn →
      s2.fullname = some fn → s1.kind ≠ s2.kind →
      ∃ m, check_consistency (symHeap [s1, s2]) 0 = Outcome.ok m []) := by
  constructor
  · intro heap parents k s rest m out j prev fn h1 h2 h3 h4
    exact checkLoop_collide_skip h2 h1 h3 h4
  · intro s1 s2 fn h1 h2 h3
    have hsyms : reachableSyms (symHeap [s1, s2]) 0 = [(1, s1), (2, s2)] := rfl
    unfold check_consistency
    rw [hsyms]
    cases hchk1 : isChecked s1 with
    | false =>
      rw [checkLoop_unchecked hchk1 h1]
      cases hchk2 : isChecked s2 with
      | false => rw [checkLoop_unchecked hchk2 h2]; exact ⟨[], rfl⟩
      | true => rw [checkLoop_record hchk2 h2 (lookupM_nil fn)]; exact ⟨_, rfl⟩
    | true =>
      rw [checkLoop_record hchk1 h1 (lookupM_nil fn)]
      cases hchk2 : isChecked s2 with
      | false => rw [checkLoop_unchecked hchk2 h2]; exact ⟨_, rfl⟩
      | true =>
        have hl : lookupM ([] ++ [(fn, 1, s1)]) fn = some (1, s1) := by
          rw [lookupM_append]
          simp [lookupM_cons, lookupM_nil]
        rw [checkLoop_collide_skip hchk2 h2 hl (Ne.symm h3)]
        exact ⟨_, rfl⟩

theorem C3_kind_change_tolerated_witness :
    (checkLoop [] [] [(5, ⟨SymKind.typeInfo, some "a", false, ""⟩)]
        [("a", 4, ⟨SymKind.mypyFile, some "a", false, ""⟩)] [] =
      checkLoop [] [] [] [("a", 4, ⟨SymKind.mypyFile, some "a", false, ""⟩)] []) ∧
    ∃ m, check_consistency (symHeap [⟨SymKind.typeInfo, some "f", false, ""⟩,
      ⟨SymKind.mypyFile, some "f", false, ""⟩]) 0 = Outcome.ok m [] :=
  ⟨C3_kind_change_tolerated.1 [] [] 5 ⟨SymKind.typeInfo, some "a", false, ""⟩
      [] [("a", 4, ⟨SymKind.mypyFile, some "a", false, ""⟩)] [] 4
      ⟨SymKind.mypyFile, some "a", false, ""⟩ "a" rfl (by decide) (by decide)
      (by decide),
   C3_kind_change_tolerated.2 ⟨SymKind.typeInfo, some "f", false, ""⟩
      ⟨SymKind.mypyFile, some "f", false, ""⟩ "f" rfl rfl (by decide)⟩

/-- C4 (counterexample): the claim as stated is false.  In a graph whose only
name-sharing reachable entities are two variable-like entities (every pair of
same-named entities consists of exempt kinds), `check_consistency` can still
raise: a third entity with an absent name (sharing no name with anything)
trips the unconditional absent-name assertion. -/
theorem C4_counterexample :
    List.Pairwise (fun a b : Nat × Sym => a.2.fullname = b.2.fullname →
        exemptKind a.2 ∧ exemptKind b.2)
      (reachableSyms (symHeap [⟨SymKind.var, some "x", false, "x"⟩,
        ⟨SymKind.var, some "x", false, "x"⟩,
        ⟨SymKind.typeInfo, none, false, ""⟩]) 0) ∧
    (check_consistency (symHeap [⟨SymKind.var, some "x", false, "x"⟩,
        ⟨SymKind.var, some "x", false, "x"⟩,
        ⟨SymKind.typeInfo, none, false, ""⟩]) 0).raised = true := by
  constructor
  · rw [show reachableSyms (symHeap [⟨SymKind.var, some "x", false, "x"⟩,
        ⟨SymKind.var, some "x", false, "x"⟩,
        ⟨SymKind.typeInfo, none, false, ""⟩]) 0 =
        [(1, ⟨SymKind.var, some "x", false, "x"⟩),
         (2, ⟨SymKind.var, some "x", false, "x"⟩),
         (3, ⟨SymKind.typeInfo, none, false, ""⟩)] from rfl]
    refine List.Pairwise.cons ?_ (List.Pairwise.cons ?_ (List.pairwise_singleton _ _))
    · intro b hb h
      rcases List.mem_cons.mp hb with h' | h'
      · subst h'
        exact ⟨Or.inl rfl, Or.inl rfl⟩
      · rcases List.mem_singleton.mp h' with h''
        subst h''
        cases h
    · intro b hb h
      rcases List.mem_singleton.mp hb with h'
      subst h'
      cases h
  · decide

/-- C4 (amended): for every graph in which every reachable non-`FakeInfo`
`NameableEntity` has a present fully-qualified name and the only name-sharing
entities are of the exempt kinds (variable-like, decorator wrapper, overload
variant), `check_consistency` completes without raising. -/
theorem C4_amended_exemptions_honored (heap : Heap) (root : Nat)
    (hnames : ∀ e ∈ reachableSyms heap root,
      (e : Nat × Sym).2.kind ≠ SymKind.fakeInfo → e.2.fullname ≠ none)
    (hshare : List.Pairwise (fun a b : Nat × Sym =>
      a.2.fullname = b.2.fullname → exemptKind a.2 ∧ exemptKind b.2)
      (reachableSyms heap root)) :
    (check_consistency heap root).raised = false := by
  have hpar : List.Pairwise (fun a b : Nat × Sym => isChecked a.2 = true →
      isChecked b.2 = true → a.2.fullname ≠ b.2.fullname)
      (reachableSyms heap root) := by
    refine hshare.imp ?_
    intro a b hab hca hcb hEq
    obtain ⟨ea, _⟩ := hab hEq
    rw [isChecked_false_of_exempt ea] at hca
    cases hca
  obtain ⟨m', hm'⟩ := checkLoop_ok_of_distinct heap
    (get_reachable_graph heap root).2 (reachableSyms heap root) [] [] hnames
    (fun e _ _ fn _ => lookupM_nil fn) hpar
  unfold check_consistency
  rw [hm']
  rfl

theorem C4_amended_exemptions_honored_witness :
    (check_consistency (symHeap [⟨SymKind.var, some "x", false, "x"⟩,
        ⟨SymKind.var, some "x", false, "x"⟩,
        ⟨SymKind.decorator, some "d", false, "d"⟩,
        ⟨SymKind.decorator, some "d", false, "d"⟩,
        ⟨SymKind.funcDef, some "f", true, "f"⟩,
        ⟨SymKind.funcDef, some "f", true, "f"⟩]) 0).raised = false :=
  C4_amended_exemptions_honored (symHeap [⟨SymKind.var, some "x", false, "x"⟩,
      ⟨SymKind.var, some "x", false, "x"⟩,
      ⟨SymKind.decorator, some "d", false, "d"⟩,
      ⟨SymKind.decorator, some "d", false, "d"⟩,
      ⟨SymKind.funcDef, some "f", true, "f"⟩,
      ⟨SymKind.funcDef, some "f", true, "f"⟩]) 0
    (by decide) (by decide)

/-- C5: for every graph in which all reachable `NameableEntity`s have
pairwise-distinct, present fully-qualified names, `check_consistency`
completes without raising. -/
theorem C5_no_false_positive_on_distinct_names (heap : Heap) (root : Nat)
    (hnames : ∀ e ∈ reachableSyms heap root, (e : Nat × Sym).2.fullname ≠ none)
    (hdistinct : List.Pairwise
      (fun a b : Nat × Sym => a.2.fullname ≠ b.2.fullname)
      (reachableSyms heap root)) :
    (check_consistency heap root).raised = false := by
  obtain ⟨m', hm'⟩ := checkLoop_ok_of_distinct heap
    (get_reachable_graph heap root).2 (reachableSyms heap root) [] []
    (fun e he _ => hnames e he)
    (fun e _ _ fn _ => lookupM_nil fn)
    (hdistinct.imp (fun h _ _ => h))
  unfold check_consistency
  rw [hm']
  rfl

theorem C5_no_false_positive_on_distinct_names_witness :
    (check_consistency (symHeap [⟨SymKind.typeInfo, some "pkg.A", false, ""⟩,
        ⟨SymKind.typeInfo, some "pkg.B", false, ""⟩,
        ⟨SymKind.funcDef, some "pkg.f", false, "f"⟩]) 0).raised = false :=
  C5_no_false_positive_on_distinct_names
    (symHeap [⟨SymKind.typeInfo, some "pkg.A", false, ""⟩,
      ⟨SymKind.typeInfo, some "pkg.B", false, ""⟩,
      ⟨SymKind.funcDef, some "pkg.f", false, "f"⟩]) 0
    (by decide) (by decide)

/-- C6: whenever `check_consistency` finds no violation (returns normally,
i.e. does not raise), it has no observable effect: the diagnostic output is
empty.  Output is only ever produced immediately before the duplicate
assertion fails. -/
theorem C6_silent_success (heap : Heap) (root : Nat)
    (h : (check_consistency heap root).raised = false) :
    (check_consistency heap root).output = [] := by
  cases hr : check_consistency heap root with
  | ok m out =>
    have hout : out = [] := by
      refine checkLoop_ok_out heap (get_reachable_graph heap root).2
        (reachableSyms heap root) [] [] m out ?_
      rw [← hr]
      rfl
    rw [hout]
    rfl
  | assertionError o =>
    rw [hr] at h
    cases h

theorem C6_silent_success_witness :
    (check_consistency (symHeap [⟨SymKind.typeInfo, some "pkg.A", false, ""⟩]) 0).output
      = [] :=
  C6_silent_success (symHeap [⟨SymKind.typeInfo, some "pkg.A", false, ""⟩]) 0
    (by decide)

/-- C9: every reachable `FakeInfo` symbol node is skipped before all checks:
the outcome of `check_consistency` — whether it raises, and every line of
diagnostic output — is identical to running the checking loop with all
`FakeInfo` entities removed from the reachable symbol list.  In particular a
`FakeInfo` with an absent name, or one sharing a name with another entity,
never causes a failure or any diagnostics. -/
theorem C9_fakeinfo_skipped_before_all_checks (heap : Heap) (root : Nat) :
    check_consistency heap root =
      checkLoop heap (get_reachable_graph heap root).2
        ((reachableSyms heap root).filter
          (fun e => !(e.2.kind == SymKind.fakeInfo))) [] [] := by
  unfold check_consistency
  exact checkLoop_filter_fake heap (get_reachable_graph heap root).2
    (reachableSyms heap root) [] []

/-- C10: (1) when a `check_consistency` run returns normally, the grouping
map binds each fully-qualified name to the first non-excluded entity
encountered with that name; (2) a collision with an entity of a different
concrete kind leaves the loop state — including that binding — unchanged;
(3) consequently, when the prefix before a later same-kind entity survives
with the first-seen entity recorded, the run raises the fatal failure whose
diagnostic lines identify the first-seen entity (identity `i`, node `s1`) as
the colliding partner. -/
theorem C10_grouping_map_first_seen_invariant :
    (∀ (heap : Heap) (root : Nat) (m : List (String × Nat × Sym))
      (out : List String),
      check_consistency heap root = Outcome.ok m out →
      ∀ fn, lookupM m fn = firstChecked (reachableSyms heap root) fn) ∧
    (∀ (heap : Heap) (parents : List (Nat × Nat × Attr)) (k : Nat) (s : Sym)
      (rest : List (Nat × Sym)) (m : List (String × Nat × Sym))
      (out : List String) (j : Nat) (prev : Sym) (fn : String),
      s.fullname = some fn → isChecked s = true →
      lookupM m fn = some (j, prev) → s.kind ≠ prev.kind →
      checkLoop heap parents ((k, s) :: rest) m out =
        checkLoop heap parents rest m out) ∧
    (∀ (heap : Heap) (root : Nat) (pre post : List (Nat × Sym)) (k i : Nat)
      (s3 s1 : Sym) (fn : String) (m : List (String × Nat × Sym))
      (out : List String),
      reachableSyms heap root = pre ++ (k, s3) :: post →
      checkLoop heap (get_reachable_graph heap root).2 pre [] [] =
        Outcome.ok m out →
      lookupM m fn = some (i, s1) →
      s3.fullname = some fn → isChecked s3 = true → s3.kind = s1.kind →
      check_consistency heap root = Outcome.assertionError
        (out ++ dupLines heap (get_reachable_graph heap root).2 k i s3 s1 fn)) := by
  refine ⟨?_, ?_, ?_⟩
  · intro heap root m out h fn
    exact checkLoop_ok_first heap (get_reachable_graph heap root).2
      (reachableSyms heap root) [] [] m out fn h (lookupM_nil fn)
  · intro heap parents k s rest m out j prev fn h1 h2 h3 h4
    exact checkLoop_collide_skip h2 h1 h3 h4
  · intro heap root pre post k i s3 s1 fn m out hsyms hpre hbind hname hchk hkind
    unfold check_consistency
    rw [hsyms]
    exact checkLoop_raise_after heap _ pre post hpre hbind hname hchk hkind

theorem C10_grouping_map_first_seen_invariant_witness :
    (∀ fn, lookupM [("pkg.X", 2, ⟨SymKind.typeInfo, some "pkg.X", false, ""⟩)] fn =
      firstChecked (reachableSyms (symHeap [⟨SymKind.var, some "pkg.X", false, "x"⟩,
        ⟨SymKind.typeInfo, some "pkg.X", false, ""⟩]) 0) fn) ∧
    (checkLoop [] [] [(5, ⟨SymKind.typeInfo, some "a", false, ""⟩)]
        [("a", 4, ⟨SymKind.mypyFile, some "a", false, ""⟩)] [] =
      checkLoop [] [] [] [("a", 4, ⟨SymKind.mypyFile, some "a", false, ""⟩)] []) ∧
    check_consistency (symHeap [⟨SymKind.typeInfo, some "pkg.F", false, ""⟩,
        ⟨SymKind.mypyFile, some "pkg.F", false, ""⟩,
        ⟨SymKind.typeInfo, some "pkg.F", false, ""⟩]) 0 =
      Outcome.assertionError
        (dupLines (symHeap [⟨SymKind.typeInfo, some "pkg.F", false, ""⟩,
            ⟨SymKind.mypyFile, some "pkg.F", false, ""⟩,
            ⟨SymKind.typeInfo, some "pkg.F", false, ""⟩])
          (get_reachable_graph (symHeap [⟨SymKind.typeInfo, some "pkg.F", false, ""⟩,
            ⟨SymKind.mypyFile, some "pkg.F", false, ""⟩,
            ⟨SymKind.typeInfo, some "pkg.F", false, ""⟩]) 0).2
          3 1 ⟨SymKind.typeInfo, some "pkg.F", false, ""⟩
          ⟨SymKind.typeInfo, some "pkg.F", false, ""⟩ "pkg.F") :=
  ⟨fun fn => C10_grouping_map_first_seen_invariant.1
      (symHeap [⟨SymKind.var, some "pkg.X", false, "x"⟩,
        ⟨SymKind.typeInfo, some "pkg.X", false, ""⟩]) 0
      [("pkg.X", 2, ⟨SymKind.typeInfo, some "pkg.X", false, ""⟩)] []
      (by decide) fn,
   C10_grouping_map_first_seen_invariant.2.1 [] [] 5
      ⟨SymKind.typeInfo, some "a", false, ""⟩ []
      [("a", 4, ⟨SymKind.mypyFile, some "a", false, ""⟩)] [] 4
      ⟨SymKind.mypyFile, some "a", false, ""⟩ "a" rfl (by decide) (by decide)
      (by decide),
   C10_grouping_map_first_seen_invariant.2.2
      (symHeap [⟨SymKind.typeInfo, some "pkg.F", false, ""⟩,
        ⟨SymKind.mypyFile, some "pkg.F", false, ""⟩,
        ⟨SymKind.typeInfo, some "pkg.F", false, ""⟩]) 0
      [(1, ⟨SymKind.typeInfo, some "pkg.F", false, ""⟩),
       (2, ⟨SymKind.mypyFile, some "pkg.F", false, ""⟩)] [] 3 1
      ⟨SymKind.typeInfo, some "pkg.F", false, ""⟩
      ⟨SymKind.typeInfo, some "pkg.F", false, ""⟩ "pkg.F"
      [("pkg.F", 1, ⟨SymKind.typeInfo, some "pkg.F", false, ""⟩)] []
      (by decide) (by decide) (by decide) rfl (by decide) rfl⟩

end MergeCheck
